import Mathlib

/-!
Verification of the memory-dependence analysis cache described in
`include/llvm/Analysis/MemoryDependenceAnalysis.h`.

The header declares the data structures (a local dependency cache
`depGraphLocal` tagged with a confirmed flag, a non-local per-block cache
`depGraphNonLocal`, and two reverse indices `reverseDep` /
`reverseDepNonLocal`), the special marker results (`NonLocal`, `None`,
`Dirty`), and the operations `getDependency`, `getNonLocalDependency`,
`removeInstruction`, `dropInstruction`, `releaseMemory`, `runOnFunction`
and the debug check `verifyRemoved`.  The bodies of the query and
invalidation operations are not part of the repository sources (only the
header is), so those operations are modelled from the specification text;
each such definition carries a doc comment saying so.  `releaseMemory` and
`runOnFunction` have their bodies in the header and are translated
directly.

Instructions and basic blocks are opaque identities; we model them as
natural numbers.  The `DenseMap`/`SmallPtrSet` containers are modelled as
association lists keyed by those identities.
-/

namespace MemDep

/-- Opaque identity of an instruction (the analysis never inspects it). -/
abbrev Instr := Nat

/-- Opaque identity of a basic block. -/
abbrev Block := Nat

/-- Opaque identity of a function (argument of `runOnFunction`). -/
abbrev Func := Nat

/-- Result of a dependency query.  `known i` is an actual instruction
pointer; `noDep`, `nonLocal` and `dirty` model the three special marker
values `None`, `NonLocal` and `Dirty` of the header. -/
inductive DepResult where
  | known : Instr → DepResult
  | noDep : DepResult
  | nonLocal : DepResult
  | dirty : DepResult
deriving DecidableEq

/-- The external CFG/IR representation plus the alias oracle, exactly the
interface the spec lists as consumed: block membership, per-block ordered
instruction lists, predecessor enumeration, `isMemoryOperation`,
`isBarrier` and `mayAlias`.  `blocks` enumerates the blocks of the
function body (the non-local walk is bounded by the function). -/
structure CFG where
  blocks : List Block
  blockOf : Instr → Block
  instrs : Block → List Instr
  preds : Block → List Block
  isMemOp : Instr → Bool
  isBarrier : Instr → Bool
  mayAlias : Instr → Instr → Bool

/-- Well-formed CFG: predecessor edges stay inside the function body. -/
def CFG.WF (g : CFG) : Prop := ∀ b b' : Block, b' ∈ g.preds b → b' ∈ g.blocks

/-- Association-list lookup, first binding wins (models `DenseMap::find`). -/
def lookupA {β : Type} (k : Nat) : List (Nat × β) → Option β
  | [] => none
  | (k1, v) :: m => if k1 = k then some v else lookupA k m

/-- Association-list update (models `DenseMap` assignment): installs the
new binding and drops any previous binding of the same key. -/
def insertA {β : Type} (k : Nat) (v : β) (m : List (Nat × β)) : List (Nat × β) :=
  (k, v) :: m.filter (fun p => decide (p.1 ≠ k))

/-- Association-list erase (models `DenseMap::erase`). -/
def eraseA {β : Type} (k : Nat) (m : List (Nat × β)) : List (Nat × β) :=
  m.filter (fun p => decide (p.1 ≠ k))

/-- The analysis state: the four containers of the header
(`depGraphLocal`, `depGraphNonLocal`, `reverseDep`, `reverseDepNonLocal`).
Local entries pair the result with the confirmed flag; non-local entries
map blocks to results; reverse indices map a dependency target to the set
(list) of instructions that recorded it. -/
structure MDA where
  depGraphLocal : List (Instr × (DepResult × Bool))
  depGraphNonLocal : List (Instr × List (Block × DepResult))
  reverseDep : List (Instr × List Instr)
  reverseDepNonLocal : List (Instr × List Instr)
deriving DecidableEq

/-- Freshly constructed analysis: all four containers empty. -/
def MDA.start : MDA := ⟨[], [], [], []⟩

/-- Modelled from the spec: the scan kernel of `getDependency`
(§4.1), whose implementation is absent from the sources.  Walks a list of
candidate instructions (already in reverse program order): non-memory
operations are skipped, a call-like barrier is conservatively taken as the
dependency, otherwise the alias oracle decides. -/
def findDep (g : CFG) (q : Instr) : List Instr → Option Instr
  | [] => none
  | c :: rest =>
    if g.isMemOp c then
      if g.isBarrier c then some c
      else if g.mayAlias c q then some c
      else findDep g q rest
    else findDep g q rest

/-- The instructions of `q`'s block strictly preceding `q`, in program
order. -/
def precBefore (g : CFG) (q : Instr) : List Instr :=
  (g.instrs (g.blockOf q)).takeWhile (fun i => decide (i ≠ q))

/-- The instructions of `q`'s block strictly preceding `q`, in reverse
program order: the scan order of the local search. -/
def precedingRev (g : CFG) (q : Instr) : List Instr :=
  (precBefore g q).reverse

/-- Result of reaching the top of block `b` without a hit: `noDep` for an
entry block (no predecessors), `nonLocal` otherwise (§4.1). -/
def topResult (g : CFG) (b : Block) : DepResult :=
  if (g.preds b).isEmpty then DepResult.noDep else DepResult.nonLocal

/-- Modelled from the spec: the full local backward scan for `q` from its
own position (§4.1); the implementation is absent from the sources. -/
def localScan (g : CFG) (q : Instr) : DepResult :=
  match findDep g q (precedingRev g q) with
  | some c => DepResult.known c
  | none => topResult g (g.blockOf q)

/-- Modelled from the spec: the local scan for `q` run over all of block
`b`, treating `b`'s terminator as the scan origin — the per-block step of
the non-local search (§4.2). -/
def localScanFrom (g : CFG) (q : Instr) (b : Block) : DepResult :=
  match findDep g q ((g.instrs b).reverse) with
  | some c => DepResult.known c
  | none => topResult g b

/-- Install a reverse edge `d → q` (add `q` to the dependent set of `d`). -/
def addRev (d q : Instr) (m : List (Instr × List Instr)) : List (Instr × List Instr) :=
  insertA d (q :: ((lookupA d m).getD [])) m

/-- A local cache entry may be trusted only if it is confirmed and not the
`Dirty` marker (§4.1, §3). -/
def cacheUsable : Option (DepResult × Bool) → Bool
  | some (DepResult.dirty, _) => false
  | some (_, conf) => conf
  | none => false

/-- Modelled from the spec: cache miss path of `getDependency` (§4.1):
run the local scan, cache the result as confirmed, and install the reverse
edge when the result is a concrete instruction. -/
def computeLocal (g : CFG) (s : MDA) (q : Instr) : DepResult × MDA :=
  let r := localScan g q
  let rev := match r with
    | DepResult.known c => addRev c q s.reverseDep
    | _ => s.reverseDep
  (r, { s with depGraphLocal := insertA q (r, true) s.depGraphLocal, reverseDep := rev })

/-- Modelled from the spec: `getDependency` (§4.1), whose implementation
is absent from the sources.  A usable (confirmed, non-dirty) cache entry
short-circuits the scan; otherwise the result is recomputed and cached. -/
def getDependency (g : CFG) (s : MDA) (q : Instr) : DepResult × MDA :=
  if cacheUsable (lookupA q s.depGraphLocal) then
    (((lookupA q s.depGraphLocal).getD (DepResult.dirty, false)).1, s)
  else computeLocal g s q

/-- Number of function blocks not yet visited: the termination measure of
the non-local worklist walk. -/
def remBlocks (g : CFG) (visited : List Block) : Nat :=
  (g.blocks.toFinset \ visited.toFinset).card

/-- Modelled from the spec: the worklist walk of the non-local search
(§4.2), whose implementation is absent from the sources.  Each block is
visited at most once per query (cycle handling); a block that resolves
locally is recorded and not expanded past; a block that yields `nonLocal`
is recorded and its predecessors are enqueued.  Blocks outside the
function body are skipped (a well-formed CFG never enqueues one). -/
def nonLocalGo (g : CFG) (q : Instr) (work visited : List Block)
    (resp : List (Block × DepResult)) : List (Block × DepResult) :=
  match work with
  | [] => resp
  | b :: rest =>
    if b ∈ visited ∨ ¬ b ∈ g.blocks then
      nonLocalGo g q rest visited resp
    else
      match localScanFrom g q b with
      | DepResult.known c => nonLocalGo g q rest (b :: visited) (insertA b (DepResult.known c) resp)
      | DepResult.noDep => nonLocalGo g q rest (b :: visited) (insertA b DepResult.noDep resp)
      | DepResult.nonLocal =>
          nonLocalGo g q (g.preds b ++ rest) (b :: visited) (insertA b DepResult.nonLocal resp)
      | DepResult.dirty => resp
termination_by (remBlocks g visited, work.length)
decreasing_by
  · apply Prod.Lex.right
    simp
  all_goals
    rename_i hcond
    apply Prod.Lex.left
    rw [not_or, not_not] at hcond
    unfold remBlocks
    rw [List.toFinset_cons, Finset.sdiff_insert]
    exact Finset.card_erase_lt_of_mem
      (Finset.mem_sdiff.mpr
        ⟨List.mem_toFinset.mpr hcond.2, fun hc => hcond.1 (List.mem_toFinset.mp hc)⟩)

/-- Modelled from the spec: the map computed by a fresh non-local query
for `q` (§4.2): worklist walk started at the immediate predecessors of
`q`'s block. -/
def nonLocalCompute (g : CFG) (q : Instr) : List (Block × DepResult) :=
  nonLocalGo g q (g.preds (g.blockOf q)) [] []

/-- Install the non-local reverse edges for every `known` entry of a
freshly computed response map (§4.2). -/
def addRevAll (q : Instr) (resp : List (Block × DepResult))
    (m : List (Instr × List Instr)) : List (Instr × List Instr) :=
  resp.foldr (fun p acc =>
    match p.2 with
    | DepResult.known c => addRev c q acc
    | _ => acc) m

/-- A cached non-local entry may be trusted only if none of its per-block
results is the `Dirty` marker (§3). -/
def bmUsable (bm : List (Block × DepResult)) : Bool :=
  bm.all (fun p => decide (p.2 ≠ DepResult.dirty))

/-- Modelled from the spec: cache miss path of `getNonLocalDependency`:
compute the response map, cache it verbatim keyed by `q`, and install a
non-local reverse edge for every `known` entry (§4.2). -/
def recomputeNL (g : CFG) (s : MDA) (q : Instr) : List (Block × DepResult) × MDA :=
  let resp := nonLocalCompute g q
  (resp, { s with depGraphNonLocal := insertA q resp s.depGraphNonLocal,
                  reverseDepNonLocal := addRevAll q resp s.reverseDepNonLocal })

/-- Modelled from the spec: `getNonLocalDependency` (§4.2), whose
implementation is absent from the sources.  A cached entry containing no
`Dirty` marker is returned as is; otherwise the map is recomputed. -/
def getNonLocalDependency (g : CFG) (s : MDA) (q : Instr) : List (Block × DepResult) × MDA :=
  match lookupA q s.depGraphNonLocal with
  | some bm => if bmUsable bm then (bm, s) else recomputeNL g s q
  | none => recomputeNL g s q

/-- Mark the local cache entries of the given dependents with the `Dirty`
marker and clear their confirmed flag (§4.3). -/
def markDirtyLocal (ds : List Instr) (m : List (Instr × (DepResult × Bool))) :
    List (Instr × (DepResult × Bool)) :=
  m.map (fun p => (p.1, if p.1 ∈ ds then (DepResult.dirty, false) else p.2))

/-- Replace every `known rem` result of a non-local entry by the `Dirty`
marker (§4.3). -/
def scrubNLVal (rem : Instr) (bm : List (Block × DepResult)) : List (Block × DepResult) :=
  bm.map (fun p => (p.1, if p.2 = DepResult.known rem then DepResult.dirty else p.2))

/-- Mark the stale parts of the non-local cache entries of the given
dependents of `rem` (§4.3). -/
def markDirtyNonLocal (rem : Instr) (ds : List Instr)
    (m : List (Instr × List (Block × DepResult))) :
    List (Instr × List (Block × DepResult)) :=
  m.map (fun p => (p.1, if p.1 ∈ ds then scrubNLVal rem p.2 else p.2))

/-- Remove every reverse edge whose source or target is `rem`: drop
`rem`'s own dependent set and remove `rem` from every other set (§4.3). -/
def scrubRev (rem : Instr) (m : List (Instr × List Instr)) : List (Instr × List Instr) :=
  (eraseA rem m).map (fun p => (p.1, p.2.filter (fun i => decide (i ≠ rem))))

/-- Modelled from the spec: `removeInstruction` (§4.3), whose
implementation is absent from the sources.  `rem` is being deleted from
the program: every dependent found through the reverse indices has its
cache entry marked `Dirty`, `rem`'s own cache entries are erased, and
every reverse edge touching `rem` is removed. -/
def removeInstruction (s : MDA) (rem : Instr) : MDA :=
  let dsL := (lookupA rem s.reverseDep).getD []
  let dsNL := (lookupA rem s.reverseDepNonLocal).getD []
  { depGraphLocal := markDirtyLocal dsL (eraseA rem s.depGraphLocal),
    depGraphNonLocal := markDirtyNonLocal rem dsNL (eraseA rem s.depGraphNonLocal),
    reverseDep := scrubRev rem s.reverseDep,
    reverseDepNonLocal := scrubRev rem s.reverseDepNonLocal }

/-- Modelled from the spec: `dropInstruction` (§4.3), whose implementation
is absent from the sources.  `drop` is being mutated in place, not
deleted: the same dependents are invalidated (marked dirty, unconfirmed),
`drop`'s own cache entries are cleared so its next query re-derives under
the new semantics, and only `drop`'s own reverse entries are consumed —
`drop` itself stays in the instruction stream and remains queryable. -/
def dropInstruction (s : MDA) (drp : Instr) : MDA :=
  let dsL := (lookupA drp s.reverseDep).getD []
  let dsNL := (lookupA drp s.reverseDepNonLocal).getD []
  { depGraphLocal := markDirtyLocal dsL (eraseA drp s.depGraphLocal),
    depGraphNonLocal := markDirtyNonLocal drp dsNL (eraseA drp s.depGraphNonLocal),
    reverseDep := eraseA drp s.reverseDep,
    reverseDepNonLocal := eraseA drp s.reverseDepNonLocal }

/-- `releaseMemory` translated from the header (lines 72–77): clears
`depGraphLocal`, `depGraphNonLocal`, `reverseDep` and
`reverseDepNonLocal` unconditionally. -/
def releaseMemory (s : MDA) : MDA :=
  { s with depGraphLocal := [], depGraphNonLocal := [],
           reverseDep := [], reverseDepNonLocal := [] }

/-- `runOnFunction` translated from the header (line 69):
`bool runOnFunction(Function &) {return false; }` — no analysis, no state
change. -/
def runOnFunction (s : MDA) (_ : Func) : Bool × MDA := (false, s)

/-- `verifyRemoved` modelled from its header doc (lines 105–107): check
that the given instruction occurs nowhere in the internal data structures
— not as a key, not as a `known` value, not as a member of a reverse
dependent set. -/
def verifyRemoved (s : MDA) (x : Instr) : Bool :=
  s.depGraphLocal.all (fun p => decide (p.1 ≠ x) && decide (p.2.1 ≠ DepResult.known x)) &&
  s.depGraphNonLocal.all (fun p =>
    decide (p.1 ≠ x) && p.2.all (fun pb => decide (pb.2 ≠ DepResult.known x))) &&
  s.reverseDep.all (fun p => decide (p.1 ≠ x) && decide (¬ x ∈ p.2)) &&
  s.reverseDepNonLocal.all (fun p => decide (p.1 ≠ x) && decide (¬ x ∈ p.2))

/-- Delete an instruction from the instruction stream: the host-side edit
that accompanies `removeInstruction` (§4.3). -/
def eraseInstr (g : CFG) (rem : Instr) : CFG :=
  { g with instrs := fun b => (g.instrs b).filter (fun i => decide (i ≠ rem)) }

/-- `d` precedes `q` inside `q`'s own block (hence on every CFG path
through that block). -/
def precedesLocal (g : CFG) (d q : Instr) : Prop := d ∈ precBefore g q

/-- Every `known` entry of the local cache is sound: the recorded
dependency precedes its dependent in the block and the oracle justifies
it. -/
def LocalSound (g : CFG) (s : MDA) : Prop :=
  ∀ q d conf, lookupA q s.depGraphLocal = some (DepResult.known d, conf) →
    precedesLocal g d q ∧ (g.mayAlias d q = true ∨ g.isBarrier d = true)

/-- Reverse-index invariant, local half: every `known d` binding of `q` in
the local cache has a reverse edge `d → q` in `reverseDep` (§3). -/
def RevInvLocal (s : MDA) : Prop :=
  ∀ q d conf, lookupA q s.depGraphLocal = some (DepResult.known d, conf) →
    ∃ l, lookupA d s.reverseDep = some l ∧ q ∈ l

/-- Reverse-index invariant, non-local half: every `known d` per-block
result recorded for `q` has a reverse edge `d → q` in
`reverseDepNonLocal` (§3). -/
def RevInvNonLocal (s : MDA) : Prop :=
  ∀ q bm b d, lookupA q s.depGraphNonLocal = some bm →
    lookupA b bm = some (DepResult.known d) →
    ∃ l, lookupA d s.reverseDepNonLocal = some l ∧ q ∈ l

/-- Both halves of the reverse-index invariant. -/
def RevInv (s : MDA) : Prop := RevInvLocal s ∧ RevInvNonLocal s

/-- Keys of an association list are pairwise distinct. -/
abbrev NodupKeys {β : Type} (m : List (Nat × β)) : Prop := (m.map Prod.fst).Nodup

/-- The containers are honest maps: no duplicate keys anywhere (outer maps
and the per-instruction non-local block maps). -/
abbrev MDA.WFK (s : MDA) : Prop :=
  NodupKeys s.depGraphLocal ∧ NodupKeys s.depGraphNonLocal ∧
  (∀ p ∈ s.depGraphNonLocal, NodupKeys p.2) ∧
  NodupKeys s.reverseDep ∧ NodupKeys s.reverseDepNonLocal

/-- No cache entry holds the `Dirty` marker (§3). -/
def NoDirty (s : MDA) : Prop :=
  (∀ p ∈ s.depGraphLocal, p.2.1 ≠ DepResult.dirty) ∧
  (∀ p ∈ s.depGraphNonLocal, ∀ pb ∈ p.2, pb.2 ≠ DepResult.dirty)

/-- One cache mutation: any public operation of the analysis. -/
inductive Step (g : CFG) : MDA → MDA → Prop where
  | localQuery (s : MDA) (q : Instr) : Step g s (getDependency g s q).2
  | nonLocalQuery (s : MDA) (q : Instr) : Step g s (getNonLocalDependency g s q).2
  | removal (s : MDA) (rem : Instr) : Step g s (removeInstruction s rem)
  | dropping (s : MDA) (d : Instr) : Step g s (dropInstruction s d)
  | release (s : MDA) : Step g s (releaseMemory s)
  | run (s : MDA) (f : Func) : Step g s (runOnFunction s f).2

/-- Blocks covered by the non-local walk for `q` when started on worklist
`work`: the worklist members and, recursively, the predecessors of every
covered block whose own scan stays unresolved. -/
inductive CoveredW (g : CFG) (q : Instr) : List Block → Block → Prop where
  | base (work : List Block) (b : Block) : b ∈ work → CoveredW g q work b
  | step (work : List Block) (b c : Block) : CoveredW g q work b →
      localScanFrom g q b = DepResult.nonLocal → c ∈ g.preds b → CoveredW g q work c

/-- Blocks covered by a non-local query for `q`: reachable backward from
`q`'s block through blocks whose local scan is unresolved. -/
def Covered (g : CFG) (q : Instr) (b : Block) : Prop :=
  CoveredW g q (g.preds (g.blockOf q)) b

/-- Backward reachability in the CFG: every block from which `b0` can be
reached along successor edges (the "blocks reachable backward" of the
spec's non-local guarantee). -/
inductive ReachesBack (g : CFG) (b0 : Block) : Block → Prop where
  | pred (b : Block) : b ∈ g.preds b0 → ReachesBack g b0 b
  | trans (b c : Block) : ReachesBack g b0 b → c ∈ g.preds b → ReachesBack g b0 c

/-- Example CFG for concrete checks: one block `0` holding instructions
`0` then `1`; both are memory operations, every pair may alias, no
barriers, no predecessors. -/
def gOne : CFG :=
  { blocks := [0],
    blockOf := fun _ => 0,
    instrs := fun b => match b with | 0 => [0, 1] | _ => [],
    preds := fun _ => [],
    isMemOp := fun _ => true,
    isBarrier := fun _ => false,
    mayAlias := fun _ _ => true }

/-- Example CFG: chain of blocks 0 → 1 → 2 where the query `20` sits in
block 2, block 1 holds only the non-memory instruction `10`, and block 0
holds the store `5` that aliases the query. -/
def gChain : CFG :=
  { blocks := [0, 1, 2],
    blockOf := fun i => match i with | 20 => 2 | 10 => 1 | _ => 0,
    instrs := fun b => match b with | 2 => [20] | 1 => [10] | 0 => [5] | _ => [],
    preds := fun b => match b with | 2 => [1] | 1 => [0] | _ => [],
    isMemOp := fun i => match i with | 10 => false | _ => true,
    isBarrier := fun _ => false,
    mayAlias := fun a _ => match a with | 5 => true | _ => false }

/-- Example CFG: the same chain, but block 1's instruction `10` is a
memory operation aliasing the query, so the non-local walk resolves at
block 1 and stops expanding — block 0 is never visited. -/
def gCut : CFG :=
  { gChain with
    isMemOp := fun _ => true,
    mayAlias := fun a _ => match a with | 5 => true | 10 => true | _ => false }

/-! ### Association-list lemmas -/

theorem lookupA_nil {β : Type} (k : Nat) : lookupA (β := β) k [] = none := rfl

theorem lookupA_cons {β : Type} (k k1 : Nat) (v : β) (m : List (Nat × β)) :
    lookupA k ((k1, v) :: m) = if k1 = k then some v else lookupA k m := rfl

theorem mem_of_lookupA {β : Type} {k : Nat} {v : β} :
    ∀ {m : List (Nat × β)}, lookupA k m = some v → (k, v) ∈ m := by
  intro m
  induction m with
  | nil => intro h; simp [lookupA] at h
  | cons a t ih =>
    intro h
    rw [show a = (a.1, a.2) from rfl, lookupA_cons] at h
    by_cases hk : a.1 = k
    · rw [if_pos hk] at h
      subst hk
      cases h
      exact List.mem_cons_self _ _
    · rw [if_neg hk] at h
      exact List.mem_cons_of_mem _ (ih h)

theorem lookupA_of_mem_nodup {β : Type} :
    ∀ {m : List (Nat × β)}, NodupKeys m → ∀ {k : Nat} {v : β}, (k, v) ∈ m →
      lookupA k m = some v := by
  intro m
  induction m with
  | nil => intro _ k v h; cases h
  | cons a t ih =>
    intro hnd k v h
    rw [NodupKeys, List.map_cons, List.nodup_cons] at hnd
    rcases List.mem_cons.mp h with h1 | h1
    · subst h1
      simp [lookupA_cons]
    · rw [show a = (a.1, a.2) from rfl, lookupA_cons]
      have hk : a.1 ≠ k := by
        intro hc
        exact hnd.1 (hc ▸ List.mem_map.mpr ⟨(k, v), h1, rfl⟩)
      rw [if_neg hk]
      exact ih hnd.2 h1

theorem lookupA_filterKey {β : Type} {k k1 : Nat} (h : k1 ≠ k) :
    ∀ (m : List (Nat × β)),
      lookupA k1 (m.filter (fun p => decide (p.1 ≠ k))) = lookupA k1 m := by
  intro m
  induction m with
  | nil => rfl
  | cons a t ih =>
    by_cases ha : a.1 = k
    · have : (decide (a.1 ≠ k)) = false := by simp [ha]
      rw [List.filter_cons, this, if_neg (by simp)]
      have hne : ¬ a.1 = k1 := fun hc => h (hc ▸ ha)
      rw [show a = (a.1, a.2) from rfl, lookupA_cons, if_neg hne]
      exact ih
    · have : (decide (a.1 ≠ k)) = true := by simp [ha]
      rw [List.filter_cons, this, if_pos (by simp)]
      rw [show a = (a.1, a.2) from rfl, lookupA_cons, lookupA_cons]
      by_cases hk1 : a.1 = k1
      · rw [if_pos hk1, if_pos hk1]
      · rw [if_neg hk1, if_neg hk1]
        exact ih

theorem lookupA_filterKey_self {β : Type} (k : Nat) :
    ∀ (m : List (Nat × β)),
      lookupA k (m.filter (fun p => decide (p.1 ≠ k))) = none := by
  intro m
  induction m with
  | nil => rfl
  | cons a t ih =>
    by_cases ha : a.1 = k
    · have : (decide (a.1 ≠ k)) = false := by simp [ha]
      rw [List.filter_cons, this, if_neg (by simp)]
      exact ih
    · have : (decide (a.1 ≠ k)) = true := by simp [ha]
      rw [List.filter_cons, this, if_pos (by simp)]
      rw [show a = (a.1, a.2) from rfl, lookupA_cons, if_neg ha]
      exact ih

theorem lookupA_insertA_self {β : Type} (k : Nat) (v : β) (m : List (Nat × β)) :
    lookupA k (insertA k v m) = some v := by
  rw [insertA, lookupA_cons, if_pos rfl]

theorem lookupA_insertA_ne {β : Type} {k k1 : Nat} (v : β) (m : List (Nat × β))
    (h : k1 ≠ k) : lookupA k1 (insertA k v m) = lookupA k1 m := by
  rw [insertA, lookupA_cons, if_neg (fun hc => h hc.symm)]
  exact lookupA_filterKey h m

theorem lookupA_eraseA_self {β : Type} (k : Nat) (m : List (Nat × β)) :
    lookupA k (eraseA k m) = none := lookupA_filterKey_self k m

theorem lookupA_eraseA_ne {β : Type} {k k1 : Nat} (m : List (Nat × β)) (h : k1 ≠ k) :
    lookupA k1 (eraseA k m) = lookupA k1 m := lookupA_filterKey h m

theorem lookupA_mapVal {β γ : Type} (f : Nat → β → γ) (k : Nat) :
    ∀ (m : List (Nat × β)),
      lookupA k (m.map (fun p => (p.1, f p.1 p.2))) = (lookupA k m).map (f k) := by
  intro m
  induction m with
  | nil => rfl
  | cons a t ih =>
    rw [List.map_cons, lookupA_cons, show a = (a.1, a.2) from rfl, lookupA_cons]
    by_cases hk : a.1 = k
    · subst hk
      rw [if_pos rfl, if_pos rfl]
      rfl
    · rw [if_neg hk, if_neg hk]
      exact ih

theorem mem_insertA {β : Type} {k : Nat} {v : β} {m : List (Nat × β)} {p : Nat × β}
    (h : p ∈ insertA k v m) : p = (k, v) ∨ p ∈ m := by
  rcases List.mem_cons.mp h with h1 | h1
  · exact Or.inl h1
  · exact Or.inr (List.mem_of_mem_filter h1)

/-! ### Scan lemmas -/

theorem findDep_sound (g : CFG) (q : Instr) :
    ∀ {l : List Instr} {c : Instr}, findDep g q l = some c →
      c ∈ l ∧ (g.isBarrier c = true ∨ g.mayAlias c q = true) := by
  intro l
  induction l with
  | nil => intro c h; simp [findDep] at h
  | cons a t ih =>
    intro c h
    rw [findDep] at h
    by_cases hm : g.isMemOp a
    · rw [if_pos hm] at h
      by_cases hb : g.isBarrier a
      · rw [if_pos hb] at h
        cases h
        exact ⟨List.mem_cons_self _ _, Or.inl hb⟩
      · rw [if_neg hb] at h
        by_cases hal : g.mayAlias a q
        · rw [if_pos hal] at h
          cases h
          exact ⟨List.mem_cons_self _ _, Or.inr hal⟩
        · rw [if_neg hal] at h
          have := ih h
          exact ⟨List.mem_cons_of_mem _ this.1, this.2⟩
    · rw [if_neg hm] at h
      have := ih h
      exact ⟨List.mem_cons_of_mem _ this.1, this.2⟩

theorem mem_takeWhile_mem {α : Type} {p : α → Bool} {x : α} :
    ∀ {l : List α}, x ∈ l.takeWhile p → x ∈ l := by
  intro l
  induction l with
  | nil => intro h; simp [List.takeWhile] at h
  | cons a t ih =>
    intro h
    rw [List.takeWhile_cons] at h
    by_cases hp : p a
    · rw [if_pos hp] at h
      rcases List.mem_cons.mp h with h1 | h1
      · exact h1 ▸ List.mem_cons_self _ _
      · exact List.mem_cons_of_mem _ (ih h1)
    · rw [if_neg hp] at h
      cases h

theorem topResult_ne_dirty (g : CFG) (b : Block) : topResult g b ≠ DepResult.dirty := by
  rw [topResult]
  by_cases h : (g.preds b).isEmpty
  · rw [if_pos h]; intro hc; cases hc
  · rw [if_neg h]; intro hc; cases hc

theorem topResult_ne_known (g : CFG) (b : Block) (c : Instr) :
    topResult g b ≠ DepResult.known c := by
  rw [topResult]
  by_cases h : (g.preds b).isEmpty
  · rw [if_pos h]; intro hc; cases hc
  · rw [if_neg h]; intro hc; cases hc

theorem localScan_ne_dirty (g : CFG) (q : Instr) : localScan g q ≠ DepResult.dirty := by
  rw [localScan]
  cases hf : findDep g q (precedingRev g q) with
  | some c => intro hc; cases hc
  | none => exact topResult_ne_dirty g _

theorem localScanFrom_ne_dirty (g : CFG) (q : Instr) (b : Block) :
    localScanFrom g q b ≠ DepResult.dirty := by
  rw [localScanFrom]
  cases hf : findDep g q ((g.instrs b).reverse) with
  | some c => intro hc; cases hc
  | none => exact topResult_ne_dirty g _

theorem localScan_known (g : CFG) {q d : Instr}
    (h : localScan g q = DepResult.known d) :
    precedesLocal g d q ∧ (g.isBarrier d = true ∨ g.mayAlias d q = true) := by
  rw [localScan] at h
  cases hf : findDep g q (precedingRev g q) with
  | some c =>
    rw [hf] at h
    cases h
    have := findDep_sound g q hf
    refine ⟨?_, this.2⟩
    rw [precedesLocal]
    rw [precedingRev] at this
    exact List.mem_reverse.mp this.1
  | none =>
    rw [hf] at h
    exact absurd h (topResult_ne_known g _ d)

/-! ### `getDependency` characterization -/

theorem cacheUsable_some {e : Option (DepResult × Bool)} (h : cacheUsable e = true) :
    ∃ r, e = some (r, true) ∧ r ≠ DepResult.dirty := by
  match e with
  | none => cases h
  | some (r, conf) =>
    cases r with
    | dirty => cases h
    | known d =>
      refine ⟨DepResult.known d, ?_, by intro hc; cases hc⟩
      have hconf : conf = true := h
      rw [hconf]
    | noDep =>
      refine ⟨DepResult.noDep, ?_, by intro hc; cases hc⟩
      have hconf : conf = true := h
      rw [hconf]
    | nonLocal =>
      refine ⟨DepResult.nonLocal, ?_, by intro hc; cases hc⟩
      have hconf : conf = true := h
      rw [hconf]

theorem getDependency_usable (g : CFG) (s : MDA) (q : Instr)
    (h : cacheUsable (lookupA q s.depGraphLocal) = true) :
    getDependency g s q =
      (((lookupA q s.depGraphLocal).getD (DepResult.dirty, false)).1, s) := by
  rw [getDependency, if_pos h]

theorem getDependency_unusable (g : CFG) (s : MDA) (q : Instr)
    (h : cacheUsable (lookupA q s.depGraphLocal) = false) :
    getDependency g s q = computeLocal g s q := by
  rw [getDependency, if_neg (by rw [h]; exact Bool.false_ne_true)]

theorem computeLocal_fst (g : CFG) (s : MDA) (q : Instr) :
    (computeLocal g s q).1 = localScan g q := rfl

theorem computeLocal_nonLocal_fields (g : CFG) (s : MDA) (q : Instr) :
    (computeLocal g s q).2.depGraphNonLocal = s.depGraphNonLocal ∧
    (computeLocal g s q).2.reverseDepNonLocal = s.reverseDepNonLocal := ⟨rfl, rfl⟩

theorem getDependency_known_cached (g : CFG) (s : MDA) (q d : Instr)
    (h : (getDependency g s q).1 = DepResult.known d) :
    lookupA q (getDependency g s q).2.depGraphLocal = some (DepResult.known d, true) := by
  by_cases hc : cacheUsable (lookupA q s.depGraphLocal) = true
  · rcases cacheUsable_some hc with ⟨r, he, _⟩
    rw [getDependency_usable g s q hc] at h ⊢
    rw [he] at h
    have hr : r = DepResult.known d := h
    rw [he, hr]
  · rw [getDependency_unusable g s q (Bool.not_eq_true _ ▸ hc)] at h ⊢
    rw [computeLocal_fst] at h
    show lookupA q (insertA q (localScan g q, true) s.depGraphLocal) = _
    rw [lookupA_insertA_self, h]

theorem getDependency_fst_ne_dirty (g : CFG) (s : MDA) (q : Instr) :
    (getDependency g s q).1 ≠ DepResult.dirty := by
  by_cases hc : cacheUsable (lookupA q s.depGraphLocal) = true
  · rw [getDependency_usable g s q hc]
    rcases cacheUsable_some hc with ⟨r, he, hr⟩
    rw [he]
    exact hr
  · rw [getDependency_unusable g s q (Bool.not_eq_true _ ▸ hc), computeLocal_fst]
    exact localScan_ne_dirty g q

/-! ### Reverse-edge lemmas -/

theorem addRev_self (c q : Instr) (m : List (Instr × List Instr)) :
    ∃ l, lookupA c (addRev c q m) = some l ∧ q ∈ l := by
  refine ⟨q :: ((lookupA c m).getD []), ?_, List.mem_cons_self _ _⟩
  rw [addRev, lookupA_insertA_self]

theorem addRev_preserves {d x : Instr} {m : List (Instr × List Instr)}
    (c q : Instr) (h : ∃ l, lookupA d m = some l ∧ x ∈ l) :
    ∃ l, lookupA d (addRev c q m) = some l ∧ x ∈ l := by
  rcases h with ⟨l, hl, hx⟩
  by_cases hdc : d = c
  · subst hdc
    refine ⟨q :: ((lookupA d m).getD []), ?_, ?_⟩
    · rw [addRev, lookupA_insertA_self]
    · rw [hl]
      exact List.mem_cons_of_mem _ hx
  · refine ⟨l, ?_, hx⟩
    rw [addRev, lookupA_insertA_ne _ _ hdc]
    exact hl

theorem addRevAll_preserves {d x : Instr} {m : List (Instr × List Instr)} (q : Instr) :
    ∀ (resp : List (Block × DepResult)), (∃ l, lookupA d m = some l ∧ x ∈ l) →
      ∃ l, lookupA d (addRevAll q resp m) = some l ∧ x ∈ l := by
  intro resp
  induction resp with
  | nil => intro h; exact h
  | cons a t ih =>
    intro h
    show ∃ l, lookupA d (match a.2 with
      | DepResult.known c => addRev c q (addRevAll q t m)
      | _ => addRevAll q t m) = some l ∧ x ∈ l
    cases a.2 with
    | known c => exact addRev_preserves c q (ih h)
    | noDep => exact ih h
    | nonLocal => exact ih h
    | dirty => exact ih h

theorem addRevAll_self {m : List (Instr × List Instr)} (q : Instr) :
    ∀ {resp : List (Block × DepResult)} {b : Block} {d : Instr},
      (b, DepResult.known d) ∈ resp →
      ∃ l, lookupA d (addRevAll q resp m) = some l ∧ q ∈ l := by
  intro resp
  induction resp with
  | nil => intro b d h; cases h
  | cons a t ih =>
    intro b d h
    show ∃ l, lookupA d (match a.2 with
      | DepResult.known c => addRev c q (addRevAll q t m)
      | _ => addRevAll q t m) = some l ∧ q ∈ l
    rcases List.mem_cons.mp h with h1 | h1
    · rw [← h1]
      exact addRev_self d q _
    · cases ha : a.2 with
      | known c => exact addRev_preserves c q (ih h1)
      | noDep => exact ih h1
      | nonLocal => exact ih h1
      | dirty => exact ih h1

/-! ### State-shape lemmas for the operations -/

theorem computeLocal_state (g : CFG) (s : MDA) (q : Instr) :
    (computeLocal g s q).2.depGraphLocal = insertA q (localScan g q, true) s.depGraphLocal :=
  rfl

theorem computeLocal_rev (g : CFG) (s : MDA) (q : Instr) :
    (computeLocal g s q).2.reverseDep =
      (match localScan g q with
        | DepResult.known c => addRev c q s.reverseDep
        | _ => s.reverseDep) := rfl

theorem getNL_eq (g : CFG) (s : MDA) (q : Instr) :
    getNonLocalDependency g s q =
      (match lookupA q s.depGraphNonLocal with
        | some bm => if bmUsable bm then (bm, s) else recomputeNL g s q
        | none => recomputeNL g s q) := rfl

theorem recomputeNL_fields (g : CFG) (s : MDA) (q : Instr) :
    (recomputeNL g s q).2.depGraphNonLocal =
        insertA q (nonLocalCompute g q) s.depGraphNonLocal ∧
    (recomputeNL g s q).2.reverseDepNonLocal =
        addRevAll q (nonLocalCompute g q) s.reverseDepNonLocal ∧
    (recomputeNL g s q).2.depGraphLocal = s.depGraphLocal ∧
    (recomputeNL g s q).2.reverseDep = s.reverseDep :=
  ⟨rfl, rfl, rfl, rfl⟩

theorem recomputeNL_fst (g : CFG) (s : MDA) (q : Instr) :
    (recomputeNL g s q).1 = nonLocalCompute g q := rfl

theorem getDependency_nonLocal_fields (g : CFG) (s : MDA) (q : Instr) :
    (getDependency g s q).2.depGraphNonLocal = s.depGraphNonLocal ∧
    (getDependency g s q).2.reverseDepNonLocal = s.reverseDepNonLocal := by
  by_cases hc : cacheUsable (lookupA q s.depGraphLocal) = true
  · rw [getDependency_usable g s q hc]
    exact ⟨rfl, rfl⟩
  · rw [getDependency_unusable g s q (Bool.not_eq_true _ ▸ hc)]
    exact ⟨rfl, rfl⟩

theorem getNL_cached {g : CFG} {s : MDA} {q : Instr} {bm : List (Block × DepResult)}
    (hl : lookupA q s.depGraphNonLocal = some bm) (hu : bmUsable bm = true) :
    getNonLocalDependency g s q = (bm, s) := by
  rw [getNL_eq, hl]
  show (if bmUsable bm = true then (bm, s) else recomputeNL g s q) = (bm, s)
  rw [if_pos hu]

theorem getNL_recompute_some {g : CFG} {s : MDA} {q : Instr} {bm : List (Block × DepResult)}
    (hl : lookupA q s.depGraphNonLocal = some bm) (hu : ¬ bmUsable bm = true) :
    getNonLocalDependency g s q = recomputeNL g s q := by
  rw [getNL_eq, hl]
  show (if bmUsable bm = true then (bm, s) else recomputeNL g s q) = recomputeNL g s q
  rw [if_neg hu]

theorem getNL_recompute_none {g : CFG} {s : MDA} {q : Instr}
    (hl : lookupA q s.depGraphNonLocal = none) :
    getNonLocalDependency g s q = recomputeNL g s q := by
  rw [getNL_eq, hl]

theorem getNL_local_fields (g : CFG) (s : MDA) (q : Instr) :
    (getNonLocalDependency g s q).2.depGraphLocal = s.depGraphLocal ∧
    (getNonLocalDependency g s q).2.reverseDep = s.reverseDep := by
  cases hl : lookupA q s.depGraphNonLocal with
  | some bm =>
    by_cases hu : bmUsable bm = true
    · rw [getNL_cached hl hu]
      exact ⟨rfl, rfl⟩
    · rw [getNL_recompute_some hl hu]
      exact ⟨rfl, rfl⟩
  | none =>
    rw [getNL_recompute_none hl]
    exact ⟨rfl, rfl⟩

theorem removeInstruction_fields (s : MDA) (rem : Instr) :
    (removeInstruction s rem).depGraphLocal =
      markDirtyLocal ((lookupA rem s.reverseDep).getD []) (eraseA rem s.depGraphLocal) ∧
    (removeInstruction s rem).depGraphNonLocal =
      markDirtyNonLocal rem ((lookupA rem s.reverseDepNonLocal).getD [])
        (eraseA rem s.depGraphNonLocal) ∧
    (removeInstruction s rem).reverseDep = scrubRev rem s.reverseDep ∧
    (removeInstruction s rem).reverseDepNonLocal = scrubRev rem s.reverseDepNonLocal :=
  ⟨rfl, rfl, rfl, rfl⟩

theorem dropInstruction_fields (s : MDA) (drp : Instr) :
    (dropInstruction s drp).depGraphLocal =
      markDirtyLocal ((lookupA drp s.reverseDep).getD []) (eraseA drp s.depGraphLocal) ∧
    (dropInstruction s drp).depGraphNonLocal =
      markDirtyNonLocal drp ((lookupA drp s.reverseDepNonLocal).getD [])
        (eraseA drp s.depGraphNonLocal) ∧
    (dropInstruction s drp).reverseDep = eraseA drp s.reverseDep ∧
    (dropInstruction s drp).reverseDepNonLocal = eraseA drp s.reverseDepNonLocal :=
  ⟨rfl, rfl, rfl, rfl⟩

theorem lookupA_markDirtyLocal (ds : List Instr) (m : List (Instr × (DepResult × Bool)))
    (k : Instr) :
    lookupA k (markDirtyLocal ds m) =
      (lookupA k m).map (fun v => if k ∈ ds then (DepResult.dirty, false) else v) :=
  lookupA_mapVal (fun k1 v => if k1 ∈ ds then (DepResult.dirty, false) else v) k m

theorem lookupA_scrubNLVal (rem : Instr) (bm : List (Block × DepResult)) (b : Block) :
    lookupA b (scrubNLVal rem bm) =
      (lookupA b bm).map
        (fun r => if r = DepResult.known rem then DepResult.dirty else r) :=
  lookupA_mapVal (fun _ r => if r = DepResult.known rem then DepResult.dirty else r) b bm

theorem lookupA_markDirtyNonLocal (rem : Instr) (ds : List Instr)
    (m : List (Instr × List (Block × DepResult))) (k : Instr) :
    lookupA k (markDirtyNonLocal rem ds m) =
      (lookupA k m).map (fun v => if k ∈ ds then scrubNLVal rem v else v) :=
  lookupA_mapVal (fun k1 v => if k1 ∈ ds then scrubNLVal rem v else v) k m

theorem lookupA_scrubRev_ne {k rem : Instr} (m : List (Instr × List Instr)) (h : k ≠ rem) :
    lookupA k (scrubRev rem m) =
      (lookupA k m).map (fun l => l.filter (fun i => decide (i ≠ rem))) := by
  have h1 : lookupA k (scrubRev rem m) =
      (lookupA k (eraseA rem m)).map (fun l => l.filter (fun i => decide (i ≠ rem))) :=
    lookupA_mapVal (fun (_ : Nat) (l : List Instr) => l.filter (fun i => decide (i ≠ rem)))
      k (eraseA rem m)
  rw [h1, lookupA_eraseA_ne m h]

/-! ### Preservation of the reverse-index invariant -/

theorem revInv_start : RevInv MDA.start := by
  constructor
  · intro q d conf h
    cases h
  · intro q bm b d h
    cases h

theorem getDependency_preserves_revInvLocal (g : CFG) (s : MDA) (q : Instr)
    (hinv : RevInvLocal s) : RevInvLocal (getDependency g s q).2 := by
  by_cases hc : cacheUsable (lookupA q s.depGraphLocal) = true
  · rw [getDependency_usable g s q hc]
    exact hinv
  · rw [getDependency_unusable g s q (Bool.not_eq_true _ ▸ hc)]
    intro q1 d1 conf1 h1
    rw [computeLocal_state] at h1
    rw [computeLocal_rev]
    by_cases hq : q1 = q
    · subst hq
      rw [lookupA_insertA_self] at h1
      injection h1 with h1
      have hscan : localScan g q1 = DepResult.known d1 := congrArg Prod.fst h1
      rw [hscan]
      exact addRev_self d1 q1 s.reverseDep
    · rw [lookupA_insertA_ne _ _ hq] at h1
      have hold := hinv q1 d1 conf1 h1
      cases hscan : localScan g q with
      | known c => exact addRev_preserves c q hold
      | noDep => exact hold
      | nonLocal => exact hold
      | dirty => exact hold

theorem getDependency_preserves_revInv (g : CFG) (s : MDA) (q : Instr)
    (hinv : RevInv s) : RevInv (getDependency g s q).2 := by
  refine ⟨getDependency_preserves_revInvLocal g s q hinv.1, ?_⟩
  intro q1 bm b d h1 h2
  rw [(getDependency_nonLocal_fields g s q).1] at h1
  rw [(getDependency_nonLocal_fields g s q).2]
  exact hinv.2 q1 bm b d h1 h2

theorem recomputeNL_preserves_revInvNonLocal (g : CFG) (s : MDA) (q : Instr)
    (hinv : RevInvNonLocal s) : RevInvNonLocal (recomputeNL g s q).2 := by
  intro q1 bm b d h1 h2
  rw [(recomputeNL_fields g s q).1] at h1
  rw [(recomputeNL_fields g s q).2.1]
  by_cases hq : q1 = q
  · subst hq
    rw [lookupA_insertA_self] at h1
    injection h1 with h1
    subst h1
    exact addRevAll_self q1 (mem_of_lookupA h2)
  · rw [lookupA_insertA_ne _ _ hq] at h1
    exact addRevAll_preserves q _ (hinv q1 bm b d h1 h2)

theorem getNL_preserves_revInv (g : CFG) (s : MDA) (q : Instr)
    (hinv : RevInv s) : RevInv (getNonLocalDependency g s q).2 := by
  constructor
  · intro q1 d1 conf1 h1
    rw [(getNL_local_fields g s q).1] at h1
    rw [(getNL_local_fields g s q).2]
    exact hinv.1 q1 d1 conf1 h1
  · cases hl : lookupA q s.depGraphNonLocal with
    | some bm =>
      by_cases hu : bmUsable bm = true
      · rw [getNL_cached hl hu]
        exact hinv.2
      · rw [getNL_recompute_some hl hu]
        exact recomputeNL_preserves_revInvNonLocal g s q hinv.2
    | none =>
      rw [getNL_recompute_none hl]
      exact recomputeNL_preserves_revInvNonLocal g s q hinv.2

theorem removeInstruction_preserves_revInv (s : MDA) (rem : Instr)
    (hinv : RevInv s) : RevInv (removeInstruction s rem) := by
  constructor
  · intro q1 d1 conf1 h1
    rw [(removeInstruction_fields s rem).1, lookupA_markDirtyLocal] at h1
    rw [(removeInstruction_fields s rem).2.2.1]
    rcases Option.map_eq_some'.mp h1 with ⟨v0, hv0, hv1⟩
    by_cases hds : q1 ∈ (lookupA rem s.reverseDep).getD []
    · rw [if_pos hds] at hv1
      cases hv1
    · rw [if_neg hds] at hv1
      subst hv1
      have hq1rem : q1 ≠ rem := by
        intro hc
        rw [hc, lookupA_eraseA_self] at hv0
        cases hv0
      rw [lookupA_eraseA_ne _ hq1rem] at hv0
      rcases hinv.1 q1 d1 conf1 hv0 with ⟨l, hl, hql⟩
      have hd1rem : d1 ≠ rem := by
        intro hc
        rw [hc] at hl
        exact hds (by rw [hl]; exact hql)
      refine ⟨l.filter (fun i => decide (i ≠ rem)), ?_, ?_⟩
      · rw [lookupA_scrubRev_ne _ hd1rem, hl]
        rfl
      · rw [List.mem_filter]
        exact ⟨hql, by simp [hq1rem]⟩
  · intro q1 bm b d h1 h2
    rw [(removeInstruction_fields s rem).2.1, lookupA_markDirtyNonLocal] at h1
    rw [(removeInstruction_fields s rem).2.2.2]
    rcases Option.map_eq_some'.mp h1 with ⟨bm0, hbm0, hbm1⟩
    have hq1rem : q1 ≠ rem := by
      intro hc
      rw [hc, lookupA_eraseA_self] at hbm0
      cases hbm0
    rw [lookupA_eraseA_ne _ hq1rem] at hbm0
    by_cases hds : q1 ∈ (lookupA rem s.reverseDepNonLocal).getD []
    · rw [if_pos hds] at hbm1
      subst hbm1
      rw [lookupA_scrubNLVal] at h2
      rcases Option.map_eq_some'.mp h2 with ⟨r0, hr0, hr1⟩
      by_cases hr : r0 = DepResult.known rem
      · rw [if_pos hr] at hr1
        cases hr1
      · rw [if_neg hr] at hr1
        subst hr1
        rcases hinv.2 q1 bm0 b d hbm0 hr0 with ⟨l, hl, hql⟩
        have hdrem : d ≠ rem := fun hc => hr (hc ▸ rfl)
        refine ⟨l.filter (fun i => decide (i ≠ rem)), ?_, ?_⟩
        · rw [lookupA_scrubRev_ne _ hdrem, hl]
          rfl
        · rw [List.mem_filter]
          exact ⟨hql, by simp [hq1rem]⟩
    · rw [if_neg hds] at hbm1
      subst hbm1
      rcases hinv.2 q1 bm0 b d hbm0 h2 with ⟨l, hl, hql⟩
      have hdrem : d ≠ rem := by
        intro hc
        rw [hc] at hl
        exact hds (by rw [hl]; exact hql)
      refine ⟨l.filter (fun i => decide (i ≠ rem)), ?_, ?_⟩
      · rw [lookupA_scrubRev_ne _ hdrem, hl]
        rfl
      · rw [List.mem_filter]
        exact ⟨hql, by simp [hq1rem]⟩

theorem dropInstruction_preserves_revInv (s : MDA) (drp : Instr)
    (hinv : RevInv s) : RevInv (dropInstruction s drp) := by
  constructor
  · intro q1 d1 conf1 h1
    rw [(dropInstruction_fields s drp).1, lookupA_markDirtyLocal] at h1
    rw [(dropInstruction_fields s drp).2.2.1]
    rcases Option.map_eq_some'.mp h1 with ⟨v0, hv0, hv1⟩
    by_cases hds : q1 ∈ (lookupA drp s.reverseDep).getD []
    · rw [if_pos hds] at hv1
      cases hv1
    · rw [if_neg hds] at hv1
      subst hv1
      have hq1d : q1 ≠ drp := by
        intro hc
        rw [hc, lookupA_eraseA_self] at hv0
        cases hv0
      rw [lookupA_eraseA_ne _ hq1d] at hv0
      rcases hinv.1 q1 d1 conf1 hv0 with ⟨l, hl, hql⟩
      have hd1 : d1 ≠ drp := by
        intro hc
        rw [hc] at hl
        exact hds (by rw [hl]; exact hql)
      refine ⟨l, ?_, hql⟩
      rw [lookupA_eraseA_ne _ hd1]
      exact hl
  · intro q1 bm b d h1 h2
    rw [(dropInstruction_fields s drp).2.1, lookupA_markDirtyNonLocal] at h1
    rw [(dropInstruction_fields s drp).2.2.2]
    rcases Option.map_eq_some'.mp h1 with ⟨bm0, hbm0, hbm1⟩
    have hq1d : q1 ≠ drp := by
      intro hc
      rw [hc, lookupA_eraseA_self] at hbm0
      cases hbm0
    rw [lookupA_eraseA_ne _ hq1d] at hbm0
    by_cases hds : q1 ∈ (lookupA drp s.reverseDepNonLocal).getD []
    · rw [if_pos hds] at hbm1
      subst hbm1
      rw [lookupA_scrubNLVal] at h2
      rcases Option.map_eq_some'.mp h2 with ⟨r0, hr0, hr1⟩
      by_cases hr : r0 = DepResult.known drp
      · rw [if_pos hr] at hr1
        cases hr1
      · rw [if_neg hr] at hr1
        subst hr1
        rcases hinv.2 q1 bm0 b d hbm0 hr0 with ⟨l, hl, hql⟩
        have hdd : d ≠ drp := fun hc => hr (hc ▸ rfl)
        refine ⟨l, ?_, hql⟩
        rw [lookupA_eraseA_ne _ hdd]
        exact hl
    · rw [if_neg hds] at hbm1
      subst hbm1
      rcases hinv.2 q1 bm0 b d hbm0 h2 with ⟨l, hl, hql⟩
      have hdd : d ≠ drp := by
        intro hc
        rw [hc] at hl
        exact hds (by rw [hl]; exact hql)
      refine ⟨l, ?_, hql⟩
      rw [lookupA_eraseA_ne _ hdd]
      exact hl

theorem releaseMemory_preserves_revInv (s : MDA) : RevInv (releaseMemory s) :=
  revInv_start

/-! ### Unfolding lemmas for the non-local worklist walk -/

theorem nonLocalGo_nil (g : CFG) (q : Instr) (visited : List Block)
    (resp : List (Block × DepResult)) : nonLocalGo g q [] visited resp = resp := by
  rw [nonLocalGo]

theorem nonLocalGo_skip {g : CFG} {q : Instr} {b : Block} {rest visited : List Block}
    {resp : List (Block × DepResult)} (h : b ∈ visited ∨ ¬ b ∈ g.blocks) :
    nonLocalGo g q (b :: rest) visited resp = nonLocalGo g q rest visited resp := by
  rw [nonLocalGo, if_pos h]

theorem nonLocalGo_known {g : CFG} {q : Instr} {b : Block} {rest visited : List Block}
    {resp : List (Block × DepResult)} {c : Instr} (h : ¬ (b ∈ visited ∨ ¬ b ∈ g.blocks))
    (hs : localScanFrom g q b = DepResult.known c) :
    nonLocalGo g q (b :: rest) visited resp =
      nonLocalGo g q rest (b :: visited) (insertA b (DepResult.known c) resp) := by
  rw [nonLocalGo, if_neg h, hs]

theorem nonLocalGo_noDep {g : CFG} {q : Instr} {b : Block} {rest visited : List Block}
    {resp : List (Block × DepResult)} (h : ¬ (b ∈ visited ∨ ¬ b ∈ g.blocks))
    (hs : localScanFrom g q b = DepResult.noDep) :
    nonLocalGo g q (b :: rest) visited resp =
      nonLocalGo g q rest (b :: visited) (insertA b DepResult.noDep resp) := by
  rw [nonLocalGo, if_neg h, hs]

theorem nonLocalGo_nonLocal {g : CFG} {q : Instr} {b : Block} {rest visited : List Block}
    {resp : List (Block × DepResult)} (h : ¬ (b ∈ visited ∨ ¬ b ∈ g.blocks))
    (hs : localScanFrom g q b = DepResult.nonLocal) :
    nonLocalGo g q (b :: rest) visited resp =
      nonLocalGo g q (g.preds b ++ rest) (b :: visited) (insertA b DepResult.nonLocal resp) := by
  rw [nonLocalGo, if_neg h, hs]

/-! ### Covered blocks and completeness of the walk -/

theorem coveredW_nonempty {g : CFG} {q : Instr} :
    ∀ {work : List Block} {x : Block}, CoveredW g q work x → ∃ y, y ∈ work := by
  intro work x h
  induction h with
  | base b hb => exact ⟨b, hb⟩
  | step b c hcb hscan hp ih => exact ih

theorem coveredW_mono {g : CFG} {q : Instr} {w2 V : List Block} :
    ∀ {w1 : List Block} {x : Block}, CoveredW g q w1 x →
      (∀ y ∈ w1, CoveredW g q w2 y ∨ y ∈ V) →
      (∀ y ∈ V, localScanFrom g q y = DepResult.nonLocal →
        ∀ p ∈ g.preds y, CoveredW g q w2 p ∨ p ∈ V) →
      CoveredW g q w2 x ∨ x ∈ V := by
  intro w1 x hx
  induction hx with
  | base b hb =>
    intro h1 _
    exact h1 b hb
  | step b c hcb hscan hp ih =>
    intro h1 h2
    rcases ih h1 h2 with hc | hv
    · exact Or.inl (CoveredW.step w2 b c hc hscan hp)
    · exact h2 b hv hscan c hp

theorem nonLocalGo_complete (g : CFG) (q : Instr) (hwf : CFG.WF g) :
    ∀ (work visited : List Block) (resp : List (Block × DepResult)),
      (∀ b ∈ work, b ∈ g.blocks) →
      (∀ b ∈ visited, b ∈ g.blocks) →
      (∀ b ∈ visited, lookupA b resp = some (localScanFrom g q b)) →
      (∀ b ∈ visited, localScanFrom g q b = DepResult.nonLocal →
        ∀ p ∈ g.preds b, p ∈ visited ∨ p ∈ work) →
      ∀ x, (CoveredW g q work x ∨ x ∈ visited) →
        lookupA x (nonLocalGo g q work visited resp) = some (localScanFrom g q x) := by
  intro work visited resp
  induction work, visited, resp using nonLocalGo.induct g q with
  | case1 visited resp =>
    intro _ _ hI _ x hx
    rw [nonLocalGo_nil]
    rcases hx with hc | hv
    · rcases coveredW_nonempty hc with ⟨y, hy⟩
      exact absurd hy (List.not_mem_nil y)
    · exact hI x hv
  | case2 visited resp b rest h ih =>
    intro hK1 hK2 hI hJ x hx
    have hbv : b ∈ visited := by
      rcases h with h1 | h1
      · exact h1
      · exact absurd (hK1 b (List.mem_cons_self b rest)) h1
    rw [nonLocalGo_skip h]
    refine ih (fun y hy => hK1 y (List.mem_cons_of_mem _ hy)) hK2 hI ?_ x ?_
    · intro y hy hs p hp
      rcases hJ y hy hs p hp with h1 | h1
      · exact Or.inl h1
      · rcases List.mem_cons.mp h1 with h2 | h2
        · exact Or.inl (h2 ▸ hbv)
        · exact Or.inr h2
    · rcases hx with hc | hv
      · refine coveredW_mono hc ?_ ?_
        · intro y hy
          rcases List.mem_cons.mp hy with h1 | h1
          · exact Or.inr (h1 ▸ hbv)
          · exact Or.inl (CoveredW.base _ _ h1)
        · intro y hy hs p hp
          rcases hJ y hy hs p hp with h1 | h1
          · exact Or.inr h1
          · rcases List.mem_cons.mp h1 with h2 | h2
            · exact Or.inr (h2 ▸ hbv)
            · exact Or.inl (CoveredW.base _ _ h2)
      · exact Or.inr hv
  | case3 visited resp b rest h c hs ih =>
    intro hK1 hK2 hI hJ x hx
    have hbnv : b ∉ visited := fun hc => h (Or.inl hc)
    have hbB : b ∈ g.blocks := by
      by_contra hc
      exact h (Or.inr hc)
    rw [nonLocalGo_known h hs]
    refine ih (fun y hy => hK1 y (List.mem_cons_of_mem _ hy)) ?_ ?_ ?_ x ?_
    · intro y hy
      rcases List.mem_cons.mp hy with h1 | h1
      · exact h1 ▸ hbB
      · exact hK2 y h1
    · intro y hy
      rcases List.mem_cons.mp hy with h1 | h1
      · subst h1
        rw [lookupA_insertA_self, hs]
      · have hyb : y ≠ b := fun hc => hbnv (hc ▸ h1)
        rw [lookupA_insertA_ne _ _ hyb]
        exact hI y h1
    · intro y hy hsy p hp
      rcases List.mem_cons.mp hy with h1 | h1
      · subst h1
        rw [hs] at hsy
        cases hsy
      · rcases hJ y h1 hsy p hp with h2 | h2
        · exact Or.inl (List.mem_cons_of_mem _ h2)
        · rcases List.mem_cons.mp h2 with h3 | h3
          · exact Or.inl (h3 ▸ List.mem_cons_self _ _)
          · exact Or.inr h3
    · rcases hx with hc | hv
      · refine coveredW_mono hc ?_ ?_
        · intro y hy
          rcases List.mem_cons.mp hy with h1 | h1
          · exact Or.inr (h1 ▸ List.mem_cons_self _ _)
          · exact Or.inl (CoveredW.base _ _ h1)
        · intro y hy hsy p hp
          rcases List.mem_cons.mp hy with h1 | h1
          · subst h1
            rw [hs] at hsy
            cases hsy
          · rcases hJ y h1 hsy p hp with h2 | h2
            · exact Or.inr (List.mem_cons_of_mem _ h2)
            · rcases List.mem_cons.mp h2 with h3 | h3
              · exact Or.inr (h3 ▸ List.mem_cons_self _ _)
              · exact Or.inl (CoveredW.base _ _ h3)
      · exact Or.inr (List.mem_cons_of_mem _ hv)
  | case4 visited resp b rest h hs ih =>
    intro hK1 hK2 hI hJ x hx
    have hbnv : b ∉ visited := fun hc => h (Or.inl hc)
    have hbB : b ∈ g.blocks := by
      by_contra hc
      exact h (Or.inr hc)
    rw [nonLocalGo_noDep h hs]
    refine ih (fun y hy => hK1 y (List.mem_cons_of_mem _ hy)) ?_ ?_ ?_ x ?_
    · intro y hy
      rcases List.mem_cons.mp hy with h1 | h1
      · exact h1 ▸ hbB
      · exact hK2 y h1
    · intro y hy
      rcases List.mem_cons.mp hy with h1 | h1
      · subst h1
        rw [lookupA_insertA_self, hs]
      · have hyb : y ≠ b := fun hc => hbnv (hc ▸ h1)
        rw [lookupA_insertA_ne _ _ hyb]
        exact hI y h1
    · intro y hy hsy p hp
      rcases List.mem_cons.mp hy with h1 | h1
      · subst h1
        rw [hs] at hsy
        cases hsy
      · rcases hJ y h1 hsy p hp with h2 | h2
        · exact Or.inl (List.mem_cons_of_mem _ h2)
        · rcases List.mem_cons.mp h2 with h3 | h3
          · exact Or.inl (h3 ▸ List.mem_cons_self _ _)
          · exact Or.inr h3
    · rcases hx with hc | hv
      · refine coveredW_mono hc ?_ ?_
        · intro y hy
          rcases List.mem_cons.mp hy with h1 | h1
          · exact Or.inr (h1 ▸ List.mem_cons_self _ _)
          · exact Or.inl (CoveredW.base _ _ h1)
        · intro y hy hsy p hp
          rcases List.mem_cons.mp hy with h1 | h1
          · subst h1
            rw [hs] at hsy
            cases hsy
          · rcases hJ y h1 hsy p hp with h2 | h2
            · exact Or.inr (List.mem_cons_of_mem _ h2)
            · rcases List.mem_cons.mp h2 with h3 | h3
              · exact Or.inr (h3 ▸ List.mem_cons_self _ _)
              · exact Or.inl (CoveredW.base _ _ h3)
      · exact Or.inr (List.mem_cons_of_mem _ hv)
  | case5 visited resp b rest h hs ih =>
    intro hK1 hK2 hI hJ x hx
    have hbnv : b ∉ visited := fun hc => h (Or.inl hc)
    have hbB : b ∈ g.blocks := by
      by_contra hc
      exact h (Or.inr hc)
    rw [nonLocalGo_nonLocal h hs]
    refine ih ?_ ?_ ?_ ?_ x ?_
    · intro y hy
      rcases List.mem_append.mp hy with h1 | h1
      · exact hwf b y h1
      · exact hK1 y (List.mem_cons_of_mem _ h1)
    · intro y hy
      rcases List.mem_cons.mp hy with h1 | h1
      · exact h1 ▸ hbB
      · exact hK2 y h1
    · intro y hy
      rcases List.mem_cons.mp hy with h1 | h1
      · subst h1
        rw [lookupA_insertA_self, hs]
      · have hyb : y ≠ b := fun hc => hbnv (hc ▸ h1)
        rw [lookupA_insertA_ne _ _ hyb]
        exact hI y h1
    · intro y hy hsy p hp
      rcases List.mem_cons.mp hy with h1 | h1
      · subst h1
        exact Or.inr (List.mem_append.mpr (Or.inl hp))
      · rcases hJ y h1 hsy p hp with h2 | h2
        · exact Or.inl (List.mem_cons_of_mem _ h2)
        · rcases List.mem_cons.mp h2 with h3 | h3
          · exact Or.inl (h3 ▸ List.mem_cons_self _ _)
          · exact Or.inr (List.mem_append.mpr (Or.inr h3))
    · rcases hx with hc | hv
      · refine coveredW_mono hc ?_ ?_
        · intro y hy
          rcases List.mem_cons.mp hy with h1 | h1
          · exact Or.inr (h1 ▸ List.mem_cons_self _ _)
          · exact Or.inl (CoveredW.base _ _ (List.mem_append.mpr (Or.inr h1)))
        · intro y hy hsy p hp
          rcases List.mem_cons.mp hy with h1 | h1
          · subst h1
            exact Or.inl (CoveredW.base _ _ (List.mem_append.mpr (Or.inl hp)))
          · rcases hJ y h1 hsy p hp with h2 | h2
            · exact Or.inr (List.mem_cons_of_mem _ h2)
            · rcases List.mem_cons.mp h2 with h3 | h3
              · exact Or.inr (h3 ▸ List.mem_cons_self _ _)
              · exact Or.inl (CoveredW.base _ _ (List.mem_append.mpr (Or.inr h3)))
      · exact Or.inr (List.mem_cons_of_mem _ hv)
  | case6 visited resp b rest h hs =>
    exact absurd hs (localScanFrom_ne_dirty g q b)

theorem nonLocalCompute_complete (g : CFG) (q : Instr) (hwf : CFG.WF g) :
    ∀ x, Covered g q x → lookupA x (nonLocalCompute g q) = some (localScanFrom g q x) := by
  intro x hx
  refine nonLocalGo_complete g q hwf (g.preds (g.blockOf q)) [] [] ?_ ?_ ?_ ?_ x (Or.inl hx)
  · intro b hb
    exact hwf _ b hb
  · intro b hb
    exact absurd hb (List.not_mem_nil b)
  · intro b hb
    exact absurd hb (List.not_mem_nil b)
  · intro b hb
    exact absurd hb (List.not_mem_nil b)

theorem nonLocalGo_vals (g : CFG) (q : Instr) :
    ∀ (work visited : List Block) (resp : List (Block × DepResult)),
      (∀ p ∈ resp, p.2 ≠ DepResult.dirty) →
      ∀ p ∈ nonLocalGo g q work visited resp, p.2 ≠ DepResult.dirty := by
  intro work visited resp
  induction work, visited, resp using nonLocalGo.induct g q with
  | case1 visited resp =>
    intro h
    rw [nonLocalGo_nil]
    exact h
  | case2 visited resp b rest h ih =>
    intro h0
    rw [nonLocalGo_skip h]
    exact ih h0
  | case3 visited resp b rest h c hs ih =>
    intro h0
    rw [nonLocalGo_known h hs]
    refine ih ?_
    intro p hp
    rcases mem_insertA hp with h1 | h1
    · rw [h1]
      intro hc
      cases hc
    · exact h0 p h1
  | case4 visited resp b rest h hs ih =>
    intro h0
    rw [nonLocalGo_noDep h hs]
    refine ih ?_
    intro p hp
    rcases mem_insertA hp with h1 | h1
    · rw [h1]
      intro hc
      cases hc
    · exact h0 p h1
  | case5 visited resp b rest h hs ih =>
    intro h0
    rw [nonLocalGo_nonLocal h hs]
    refine ih ?_
    intro p hp
    rcases mem_insertA hp with h1 | h1
    · rw [h1]
      intro hc
      cases hc
    · exact h0 p h1
  | case6 visited resp b rest h hs =>
    exact absurd hs (localScanFrom_ne_dirty g q b)

theorem nonLocalCompute_vals (g : CFG) (q : Instr) :
    ∀ p ∈ nonLocalCompute g q, p.2 ≠ DepResult.dirty :=
  nonLocalGo_vals g q _ [] [] (fun p hp => absurd hp (List.not_mem_nil p))

/-! ### Miscellaneous helpers -/

theorem mem_eraseA {β : Type} {k : Nat} {p : Nat × β} {m : List (Nat × β)} :
    p ∈ eraseA k m ↔ p ∈ m ∧ p.1 ≠ k := by
  constructor
  · intro h
    have h1 := List.mem_filter.mp h
    exact ⟨h1.1, of_decide_eq_true h1.2⟩
  · intro h
    exact List.mem_filter.mpr ⟨h.1, decide_eq_true h.2⟩

theorem noDirty_start : NoDirty MDA.start :=
  ⟨fun p hp => absurd hp (List.not_mem_nil p), fun p hp => absurd hp (List.not_mem_nil p)⟩

theorem recomputeNL_noDirty (g : CFG) (s : MDA) (q : Instr) (hnd : NoDirty s) :
    NoDirty (recomputeNL g s q).2 := by
  refine ⟨?_, ?_⟩
  · intro p hp
    rw [(recomputeNL_fields g s q).2.2.1] at hp
    exact hnd.1 p hp
  · intro p hp
    rw [(recomputeNL_fields g s q).1] at hp
    rcases mem_insertA hp with h1 | h1
    · rw [h1]
      intro pb hpb
      exact nonLocalCompute_vals g q pb hpb
    · exact hnd.2 p h1

theorem gChain_wf : CFG.WF gChain := by
  intro b c hc
  cases b with
  | zero => cases hc
  | succ b1 =>
    cases b1 with
    | zero =>
      have h0 : c = 0 := List.mem_singleton.mp hc
      subst h0
      decide
    | succ b2 =>
      cases b2 with
      | zero =>
        have h1 : c = 1 := List.mem_singleton.mp hc
        subst h1
        decide
      | succ b3 => cases hc

theorem gCut_wf : CFG.WF gCut := gChain_wf

theorem nonLocalCompute_gChain :
    nonLocalCompute gChain 20 = [(0, DepResult.known 5), (1, DepResult.nonLocal)] := by
  have h1 : ¬ ((1 : Block) ∈ ([] : List Block) ∨ ¬ (1 : Block) ∈ gChain.blocks) := by decide
  have hs1 : localScanFrom gChain 20 1 = DepResult.nonLocal := by decide
  have h0 : ¬ ((0 : Block) ∈ ([1] : List Block) ∨ ¬ (0 : Block) ∈ gChain.blocks) := by decide
  have hs0 : localScanFrom gChain 20 0 = DepResult.known 5 := by decide
  show nonLocalGo gChain 20 [1] [] [] = _
  rw [nonLocalGo_nonLocal h1 hs1]
  show nonLocalGo gChain 20 [0] [1] [(1, DepResult.nonLocal)] = _
  rw [nonLocalGo_known h0 hs0]
  show nonLocalGo gChain 20 [] [0, 1] [(0, DepResult.known 5), (1, DepResult.nonLocal)] = _
  rw [nonLocalGo_nil]

theorem nonLocalCompute_gCut :
    nonLocalCompute gCut 20 = [(1, DepResult.known 10)] := by
  have h1 : ¬ ((1 : Block) ∈ ([] : List Block) ∨ ¬ (1 : Block) ∈ gCut.blocks) := by decide
  have hs1 : localScanFrom gCut 20 1 = DepResult.known 10 := by decide
  show nonLocalGo gCut 20 [1] [] [] = _
  rw [nonLocalGo_known h1 hs1]
  show nonLocalGo gCut 20 [] [1] [(1, DepResult.known 10)] = _
  rw [nonLocalGo_nil]

/-! ### Claims -/

/-- C1: if `getDependency` answers `Known d` for query `q` (from any state
whose cached `known` entries are themselves sound), then `d` precedes `q`
inside `q`'s block — hence on every CFG path through it — and the oracle
justifies the edge: `mayAlias d q` or `isBarrier d`. -/
theorem getDependency_sound (g : CFG) (s : MDA) (q d : Instr)
    (hs : LocalSound g s) (h : (getDependency g s q).1 = DepResult.known d) :
    precedesLocal g d q ∧ (g.mayAlias d q = true ∨ g.isBarrier d = true) := by
  by_cases hc : cacheUsable (lookupA q s.depGraphLocal) = true
  · rcases cacheUsable_some hc with ⟨r, he, _⟩
    rw [getDependency_usable g s q hc] at h
    rw [he] at h
    have hr : r = DepResult.known d := h
    rw [hr] at he
    exact hs q d true he
  · rw [getDependency_unusable g s q (Bool.not_eq_true _ ▸ hc), computeLocal_fst] at h
    have h1 := localScan_known g h
    exact ⟨h1.1, h1.2.symm⟩

theorem getDependency_sound_witness :
    LocalSound gOne MDA.start ∧
    (getDependency gOne MDA.start 1).1 = DepResult.known 0 ∧
    (precedesLocal gOne 0 1 ∧ (gOne.mayAlias 0 1 = true ∨ gOne.isBarrier 0 = true)) := by
  have hs : LocalSound gOne MDA.start := fun q d conf h => by cases h
  exact ⟨hs, by decide, getDependency_sound gOne MDA.start 1 0 hs (by decide)⟩

/-- C2: every public operation (local query, non-local query, removal,
drop, release, `runOnFunction`) preserves the reverse-index invariant:
whenever `d` is recorded as a dependency of `q` in the local
(resp. non-local) cache, the matching reverse index holds an edge from `d`
back to `q`. -/
theorem step_preserves_revInv (g : CFG) (s s2 : MDA)
    (hinv : RevInv s) (hstep : Step g s s2) : RevInv s2 := by
  cases hstep with
  | localQuery q => exact getDependency_preserves_revInv g s q hinv
  | nonLocalQuery q => exact getNL_preserves_revInv g s q hinv
  | removal rem => exact removeInstruction_preserves_revInv s rem hinv
  | dropping d => exact dropInstruction_preserves_revInv s d hinv
  | release => exact revInv_start
  | run f => exact hinv

theorem step_preserves_revInv_witness :
    RevInv MDA.start ∧ RevInv (getDependency gOne MDA.start 1).2 :=
  ⟨revInv_start,
    step_preserves_revInv gOne MDA.start _ revInv_start (Step.localQuery MDA.start 1)⟩

/-- C3: if `getDependency` answered `Known d` for `q`, then after the host
deletes `d` from the instruction stream and calls `removeInstruction d`,
re-querying `q` recomputes a fresh local scan of the new stream — a total
function, so no crash — whose result is never `Known d` again and never
the `Dirty` marker. -/
theorem remove_then_requery (g : CFG) (s : MDA) (q d : Instr)
    (hinv : RevInvLocal s)
    (h1 : (getDependency g s q).1 = DepResult.known d) :
    (getDependency (eraseInstr g d)
        (removeInstruction (getDependency g s q).2 d) q).1 =
      localScan (eraseInstr g d) q ∧
    (getDependency (eraseInstr g d)
        (removeInstruction (getDependency g s q).2 d) q).1 ≠ DepResult.known d ∧
    (getDependency (eraseInstr g d)
        (removeInstruction (getDependency g s q).2 d) q).1 ≠ DepResult.dirty := by
  have hentry : lookupA q (getDependency g s q).2.depGraphLocal =
      some (DepResult.known d, true) := getDependency_known_cached g s q d h1
  have hinv1 : RevInvLocal (getDependency g s q).2 :=
    getDependency_preserves_revInvLocal g s q hinv
  rcases hinv1 q d true hentry with ⟨l, hl, hql⟩
  have hq2 : cacheUsable
      (lookupA q (removeInstruction (getDependency g s q).2 d).depGraphLocal) = false := by
    rw [(removeInstruction_fields _ d).1, lookupA_markDirtyLocal]
    by_cases hqd : q = d
    · rw [hqd, lookupA_eraseA_self]
      rfl
    · rw [lookupA_eraseA_ne _ hqd, hentry]
      have hqds : q ∈ (lookupA d (getDependency g s q).2.reverseDep).getD [] := by
        rw [hl]
        exact hql
      show cacheUsable (some (if q ∈ (lookupA d (getDependency g s q).2.reverseDep).getD []
          then (DepResult.dirty, false) else (DepResult.known d, true))) = false
      rw [if_pos hqds]
      rfl
  have hre := getDependency_unusable (eraseInstr g d)
    (removeInstruction (getDependency g s q).2 d) q hq2
  have hfst : (getDependency (eraseInstr g d)
      (removeInstruction (getDependency g s q).2 d) q).1 =
      localScan (eraseInstr g d) q := by
    rw [hre, computeLocal_fst]
  refine ⟨hfst, ?_, ?_⟩
  · rw [hfst]
    intro hc
    have h2 := (localScan_known (eraseInstr g d) hc).1
    rw [precedesLocal] at h2
    have h3 := mem_takeWhile_mem h2
    have h4 := List.mem_filter.mp h3
    exact (of_decide_eq_true h4.2) rfl
  · rw [hfst]
    exact localScan_ne_dirty (eraseInstr g d) q

theorem remove_then_requery_witness :
    RevInvLocal MDA.start ∧
    (getDependency gOne MDA.start 1).1 = DepResult.known 0 ∧
    ((getDependency (eraseInstr gOne 0)
        (removeInstruction (getDependency gOne MDA.start 1).2 0) 1).1 =
      localScan (eraseInstr gOne 0) 1 ∧
    (getDependency (eraseInstr gOne 0)
        (removeInstruction (getDependency gOne MDA.start 1).2 0) 1).1 ≠ DepResult.known 0 ∧
    (getDependency (eraseInstr gOne 0)
        (removeInstruction (getDependency gOne MDA.start 1).2 0) 1).1 ≠ DepResult.dirty) :=
  ⟨revInv_start.1, by decide,
    remove_then_requery gOne MDA.start 1 0 revInv_start.1 (by decide)⟩

/-- C4: after `removeInstruction rem` (from a coherent state: reverse-index
invariant and honest map keys), no internal data structure — local cache,
non-local cache, or either reverse index — references `rem` as a key, a
`known` value, or a dependent-set member: exactly the `verifyRemoved`
check. -/
theorem remove_verifyRemoved (s : MDA) (rem : Instr)
    (hinv : RevInv s) (hwfk : MDA.WFK s) :
    verifyRemoved (removeInstruction s rem) rem = true := by
  rw [verifyRemoved, (removeInstruction_fields s rem).1, (removeInstruction_fields s rem).2.1,
      (removeInstruction_fields s rem).2.2.1, (removeInstruction_fields s rem).2.2.2]
  simp only [Bool.and_eq_true]
  refine ⟨⟨⟨?_, ?_⟩, ?_⟩, ?_⟩
  · rw [List.all_eq_true]
    intro p hp
    rcases List.mem_map.mp hp with ⟨p0, hp0, hmap⟩
    rcases mem_eraseA.mp hp0 with ⟨hp0mem, hp0ne⟩
    rw [Bool.and_eq_true]
    refine ⟨?_, ?_⟩
    · rw [← hmap, decide_eq_true_eq]
      exact hp0ne
    · rw [← hmap, decide_eq_true_eq]
      by_cases hds : p0.1 ∈ (lookupA rem s.reverseDep).getD []
      · rw [if_pos hds]
        intro hc
        cases hc
      · rw [if_neg hds]
        intro hc
        have hl0 : lookupA p0.1 s.depGraphLocal = some p0.2 :=
          lookupA_of_mem_nodup hwfk.1 hp0mem
      -- the surviving value names `rem`: contradict the reverse index
        have hv : p0.2 = (DepResult.known rem, p0.2.2) := by
          rw [← hc]
        rw [hv] at hl0
        rcases hinv.1 p0.1 rem p0.2.2 hl0 with ⟨l, hl, hml⟩
        apply hds
        rw [hl]
        exact hml
  · rw [List.all_eq_true]
    intro p hp
    rcases List.mem_map.mp hp with ⟨p0, hp0, hmap⟩
    rcases mem_eraseA.mp hp0 with ⟨hp0mem, hp0ne⟩
    rw [Bool.and_eq_true]
    refine ⟨?_, ?_⟩
    · rw [← hmap, decide_eq_true_eq]
      exact hp0ne
    · rw [← hmap]
      rw [List.all_eq_true]
      intro pb hpb
      rw [decide_eq_true_eq]
      by_cases hds : p0.1 ∈ (lookupA rem s.reverseDepNonLocal).getD []
      · rw [if_pos hds] at hpb
        rcases List.mem_map.mp hpb with ⟨pb0, hpb0, hpbmap⟩
        rw [← hpbmap]
        by_cases hrr : pb0.2 = DepResult.known rem
        · rw [if_pos hrr]
          intro hc
          cases hc
        · rw [if_neg hrr]
          exact hrr
      · rw [if_neg hds] at hpb
        intro hc
        have houter : lookupA p0.1 s.depGraphNonLocal = some p0.2 :=
          lookupA_of_mem_nodup hwfk.2.1 hp0mem
        have hinner : lookupA pb.1 p0.2 = some (DepResult.known rem) := by
          have hnd : NodupKeys p0.2 := hwfk.2.2.1 p0 hp0mem
          have hmem : (pb.1, DepResult.known rem) ∈ p0.2 := by
            rw [← hc]
            exact hpb
          exact lookupA_of_mem_nodup hnd hmem
        rcases hinv.2 p0.1 p0.2 pb.1 rem houter hinner with ⟨l, hl, hml⟩
        apply hds
        rw [hl]
        exact hml
  · rw [List.all_eq_true]
    intro p hp
    rcases List.mem_map.mp hp with ⟨p0, hp0, hmap⟩
    rcases mem_eraseA.mp hp0 with ⟨hp0mem, hp0ne⟩
    rw [Bool.and_eq_true]
    refine ⟨?_, ?_⟩
    · rw [← hmap, decide_eq_true_eq]
      exact hp0ne
    · rw [← hmap, decide_eq_true_eq]
      intro hc
      have h1 := List.mem_filter.mp hc
      exact (of_decide_eq_true h1.2) rfl
  · rw [List.all_eq_true]
    intro p hp
    rcases List.mem_map.mp hp with ⟨p0, hp0, hmap⟩
    rcases mem_eraseA.mp hp0 with ⟨hp0mem, hp0ne⟩
    rw [Bool.and_eq_true]
    refine ⟨?_, ?_⟩
    · rw [← hmap, decide_eq_true_eq]
      exact hp0ne
    · rw [← hmap, decide_eq_true_eq]
      intro hc
      have h1 := List.mem_filter.mp hc
      exact (of_decide_eq_true h1.2) rfl

theorem remove_verifyRemoved_witness :
    RevInv (getDependency gOne MDA.start 1).2 ∧
    MDA.WFK (getDependency gOne MDA.start 1).2 ∧
    verifyRemoved (removeInstruction (getDependency gOne MDA.start 1).2 0) 0 = true := by
  have h1 : RevInv (getDependency gOne MDA.start 1).2 :=
    getDependency_preserves_revInv gOne MDA.start 1 revInv_start
  have h2 : MDA.WFK (getDependency gOne MDA.start 1).2 := by decide
  exact ⟨h1, h2, remove_verifyRemoved (getDependency gOne MDA.start 1).2 0 h1 h2⟩

/-- C5: when the local backward scan for `q` reaches the top of its block
with no hit (and no usable cache entry short-circuits it),
`getDependency` returns `None` if the block has no predecessors and
`NonLocal` otherwise. -/
theorem getDependency_top_of_block (g : CFG) (s : MDA) (q : Instr)
    (hc : cacheUsable (lookupA q s.depGraphLocal) = false)
    (hscan : findDep g q (precedingRev g q) = none) :
    (g.preds (g.blockOf q) = [] → (getDependency g s q).1 = DepResult.noDep) ∧
    (g.preds (g.blockOf q) ≠ [] → (getDependency g s q).1 = DepResult.nonLocal) := by
  rw [getDependency_unusable g s q hc, computeLocal_fst]
  have hls : localScan g q = topResult g (g.blockOf q) := by
    rw [localScan, hscan]
  rw [hls]
  constructor
  · intro hp
    simp [topResult, hp]
  · intro hp
    simp [topResult, hp]

theorem getDependency_top_of_block_witness :
    cacheUsable (lookupA 0 MDA.start.depGraphLocal) = false ∧
    findDep gOne 0 (precedingRev gOne 0) = none ∧
    (getDependency gOne MDA.start 0).1 = DepResult.noDep := by
  refine ⟨by decide, by decide, ?_⟩
  exact (getDependency_top_of_block gOne MDA.start 0 (by decide) (by decide)).1 (by decide)

/-- C6 (amended): after a fresh `getNonLocalDependency` query on a
well-formed CFG, the returned map has an entry for every block reachable
backward from the query's block through blocks whose own scan is
unresolved, and that entry is exactly the block's local scan result — in
particular every such intermediate block is marked `NonLocal`.  Blocks
hidden behind a block that resolves locally are not visited (the walk
stops expanding there), so the map is not total over all
backward-reachable blocks. -/
theorem getNonLocalDependency_covered (g : CFG) (s : MDA) (q : Instr)
    (hwf : CFG.WF g) (hfresh : lookupA q s.depGraphNonLocal = none) :
    ∀ b, Covered g q b →
      lookupA b (getNonLocalDependency g s q).1 = some (localScanFrom g q b) := by
  intro b hb
  rw [getNL_recompute_none hfresh, recomputeNL_fst]
  exact nonLocalCompute_complete g q hwf b hb

theorem getNonLocalDependency_covered_witness :
    CFG.WF gChain ∧
    lookupA 20 MDA.start.depGraphNonLocal = none ∧
    Covered gChain 20 0 ∧
    lookupA 0 (getNonLocalDependency gChain MDA.start 20).1 = some (DepResult.known 5) := by
  have hcov : Covered gChain 20 0 :=
    CoveredW.step _ 1 0 (CoveredW.base _ 1 (by decide)) (by decide) (by decide)
  refine ⟨gChain_wf, rfl, hcov, ?_⟩
  have h := getNonLocalDependency_covered gChain MDA.start 20 gChain_wf rfl 0 hcov
  rw [h]
  rfl

/-- C6 (counterexample): the map returned by `getNonLocalDependency` is
not total over all blocks backward-reachable from the query's block.  In
the chain 0 → 1 → 2 where block 1 resolves locally, block 0 is
backward-reachable from the query's block 2 yet has no entry: the walk
stops expanding past the resolved block 1. -/
theorem getNonLocalDependency_not_total :
    CFG.WF gCut ∧
    lookupA 20 MDA.start.depGraphNonLocal = none ∧
    ReachesBack gCut (gCut.blockOf 20) 0 ∧
    lookupA 0 (getNonLocalDependency gCut MDA.start 20).1 = none := by
  refine ⟨gCut_wf, rfl, ?_, ?_⟩
  · exact ReachesBack.trans 1 0 (ReachesBack.pred 1 (by decide)) (by decide)
  · rw [@getNL_recompute_none gCut MDA.start 20 rfl, recomputeNL_fst, nonLocalCompute_gCut]
    rfl

/-- C7: `dropInstruction d` clears `d`'s own cache entries but leaves `d`
queryable — its next query runs the fresh local scan on the unchanged
instruction stream — and every instruction that recorded `d` as its
dependency has its entry marked dirty and unconfirmed
(`confirmed = false`), so it is recomputed rather than trusted. -/
theorem dropInstruction_spec (g : CFG) (s : MDA) (q d : Instr) (conf : Bool)
    (hinv : RevInvLocal s)
    (hq : lookupA q s.depGraphLocal = some (DepResult.known d, conf))
    (hqd : q ≠ d) :
    lookupA d (dropInstruction s d).depGraphLocal = none ∧
    lookupA d (dropInstruction s d).depGraphNonLocal = none ∧
    lookupA q (dropInstruction s d).depGraphLocal = some (DepResult.dirty, false) ∧
    (getDependency g (dropInstruction s d) d).1 = localScan g d := by
  rcases hinv q d conf hq with ⟨l, hl, hql⟩
  have ha : lookupA d (dropInstruction s d).depGraphLocal = none := by
    rw [(dropInstruction_fields s d).1, lookupA_markDirtyLocal, lookupA_eraseA_self]
    rfl
  have hb : lookupA d (dropInstruction s d).depGraphNonLocal = none := by
    rw [(dropInstruction_fields s d).2.1, lookupA_markDirtyNonLocal, lookupA_eraseA_self]
    rfl
  refine ⟨ha, hb, ?_, ?_⟩
  · rw [(dropInstruction_fields s d).1, lookupA_markDirtyLocal, lookupA_eraseA_ne _ hqd, hq]
    have hds : q ∈ (lookupA d s.reverseDep).getD [] := by
      rw [hl]
      exact hql
    show some (if q ∈ (lookupA d s.reverseDep).getD []
        then (DepResult.dirty, false) else (DepResult.known d, conf)) =
      some (DepResult.dirty, false)
    rw [if_pos hds]
  · rw [getDependency_unusable g _ d (by rw [ha]; rfl), computeLocal_fst]

theorem dropInstruction_spec_witness :
    RevInvLocal (getDependency gOne MDA.start 1).2 ∧
    lookupA 1 (getDependency gOne MDA.start 1).2.depGraphLocal =
      some (DepResult.known 0, true) ∧
    (1 : Instr) ≠ 0 ∧
    (lookupA 0 (dropInstruction (getDependency gOne MDA.start 1).2 0).depGraphLocal = none ∧
      lookupA 0 (dropInstruction (getDependency gOne MDA.start 1).2 0).depGraphNonLocal =
        none ∧
      lookupA 1 (dropInstruction (getDependency gOne MDA.start 1).2 0).depGraphLocal =
        some (DepResult.dirty, false) ∧
      (getDependency gOne (dropInstruction (getDependency gOne MDA.start 1).2 0) 0).1 =
        localScan gOne 0) := by
  have h1 : RevInvLocal (getDependency gOne MDA.start 1).2 :=
    (getDependency_preserves_revInv gOne MDA.start 1 revInv_start).1
  exact ⟨h1, by decide, by decide,
    dropInstruction_spec gOne (getDependency gOne MDA.start 1).2 1 0 true h1
      (by decide) (by decide)⟩

/-- C8: the `Dirty` marker never escapes to a caller — a local query never
returns it and no entry of a returned non-local map holds it — and
queries never install it: from a dirty-free state, both query operations
leave the caches dirty-free (dirty entries are created only by the
invalidation operations and are consumed by the next query that reads
them). -/
theorem dirty_never_escapes (g : CFG) (s : MDA) (q : Instr) :
    (getDependency g s q).1 ≠ DepResult.dirty ∧
    (∀ b r, lookupA b (getNonLocalDependency g s q).1 = some r → r ≠ DepResult.dirty) ∧
    (NoDirty s → NoDirty (getDependency g s q).2 ∧ NoDirty (getNonLocalDependency g s q).2) := by
  refine ⟨getDependency_fst_ne_dirty g s q, ?_, ?_⟩
  · intro b r hbr
    cases hl : lookupA q s.depGraphNonLocal with
    | some bm =>
      by_cases hu : bmUsable bm = true
      · rw [getNL_cached hl hu] at hbr
        have hmem := mem_of_lookupA hbr
        have hall := List.all_eq_true.mp hu (b, r) hmem
        exact of_decide_eq_true hall
      · rw [getNL_recompute_some hl hu, recomputeNL_fst] at hbr
        exact nonLocalCompute_vals g q (b, r) (mem_of_lookupA hbr)
    | none =>
      rw [getNL_recompute_none hl, recomputeNL_fst] at hbr
      exact nonLocalCompute_vals g q (b, r) (mem_of_lookupA hbr)
  · intro hnd
    constructor
    · by_cases hc : cacheUsable (lookupA q s.depGraphLocal) = true
      · rw [getDependency_usable g s q hc]
        exact hnd
      · rw [getDependency_unusable g s q (Bool.not_eq_true _ ▸ hc)]
        refine ⟨?_, ?_⟩
        · intro p hp
          rw [computeLocal_state] at hp
          rcases mem_insertA hp with h1 | h1
          · rw [h1]
            exact localScan_ne_dirty g q
          · exact hnd.1 p h1
        · intro p hp
          rw [(computeLocal_nonLocal_fields g s q).1] at hp
          exact hnd.2 p hp
    · cases hl : lookupA q s.depGraphNonLocal with
      | some bm =>
        by_cases hu : bmUsable bm = true
        · rw [getNL_cached hl hu]
          exact hnd
        · rw [getNL_recompute_some hl hu]
          exact recomputeNL_noDirty g s q hnd
      | none =>
        rw [getNL_recompute_none hl]
        exact recomputeNL_noDirty g s q hnd

theorem dirty_never_escapes_witness :
    (getDependency gCut MDA.start 20).1 ≠ DepResult.dirty ∧
    DepResult.known 10 ≠ DepResult.dirty ∧
    NoDirty (getDependency gCut MDA.start 20).2 := by
  have h := dirty_never_escapes gCut MDA.start 20
  refine ⟨h.1, ?_, (h.2.2 noDirty_start).1⟩
  refine h.2.1 1 (DepResult.known 10) ?_
  rw [@getNL_recompute_none gCut MDA.start 20 rfl, recomputeNL_fst, nonLocalCompute_gCut]
  rfl

/-- C9: `releaseMemory` unconditionally clears the local cache, the
non-local cache and both reverse indices; it is idempotent, and both query
operations behave on a released state exactly as on a freshly constructed
instance. -/
theorem releaseMemory_resets (g : CFG) (s : MDA) (q : Instr) :
    releaseMemory s = MDA.start ∧
    releaseMemory (releaseMemory s) = releaseMemory s ∧
    getDependency g (releaseMemory s) q = getDependency g MDA.start q ∧
    getNonLocalDependency g (releaseMemory s) q = getNonLocalDependency g MDA.start q :=
  ⟨rfl, rfl, rfl, rfl⟩

/-- C10: `runOnFunction` always returns `false` and leaves the analysis
state untouched for every function: all cache population happens lazily
inside the query operations. -/
theorem runOnFunction_inert (s : MDA) (f : Func) :
    runOnFunction s f = (false, s) := rfl

end MemDep
